import Mathlib

/-!
Shallow embedding of the DoT circulars watcher pipeline
(src/dot_watcher.py, src/watch_dot_circulars.py).

Python strings are modelled as lists of characters (Str); Python sets as
finite sets (Finset Str); unbounded while loops with explicit fuel, with
a proof that the chosen fuel suffices.  Machine-level concerns (CSV byte
encoding, the HTTP transport, the external LLM service) are abstracted
exactly as the specification's component contracts describe them: the
listing fetch is an Option value, the LLM is an oracle function, a PDF
document is an optional list of page texts.
-/

/-- Python strings are modelled as lists of characters. -/
abbrev Str : Type := List Char

/-- Whitespace characters of the regex class used by sanitize_name
(ASCII range of Python's whitespace class). -/
def isPySpace (c : Char) : Bool :=
  c == ' ' || c == '\t' || c == '\n' || c == '\r' || c == '\x0b' || c == '\x0c'

/-- Python str.lstrip with a character predicate. -/
def lstripP (p : Char → Bool) (s : Str) : Str := s.dropWhile p

/-- Python str.rstrip with a character predicate. -/
def rstripP (p : Char → Bool) (s : Str) : Str := (s.reverse.dropWhile p).reverse

/-- Python str.strip with a character predicate. -/
def stripP (p : Char → Bool) (s : Str) : Str := rstripP p (lstripP p s)

/-- The regex substitution in sanitize_name replacing every maximal run
of whitespace by a single space. -/
def collapse_ws : Str → Str
  | [] => []
  | [c] => if isPySpace c then [' '] else [c]
  | a :: b :: rest =>
    if isPySpace a && isPySpace b then collapse_ws (b :: rest)
    else (if isPySpace a then ' ' else a) :: collapse_ws (b :: rest)

/-- Characters kept by the second regex substitution in sanitize_name:
the class A-Za-z0-9 hyphen underscore dot space. -/
def isKeepChar (c : Char) : Bool :=
  c.isAlphanum || c == '-' || c == '_' || c == '.' || c == ' '

/-- Separator characters trimmed at both ends by sanitize_name. -/
def isSepChar (c : Char) : Bool := c == '.' || c == '_' || c == '-'

/-- The fixed fallback stem returned by sanitize_name. -/
def docDefault : Str := "document".toList

/-- The space-to-underscore replacement in sanitize_name. -/
def spaceToUnderscore (c : Char) : Char := if c = ' ' then '_' else c

/-- sanitize_name from dot_watcher.py: empty input returns empty;
otherwise collapse whitespace and trim it, drop characters outside the
kept class, turn spaces into underscores, truncate to max_len, trim
leading and trailing separators, and fall back to the fixed stem if the
result emptied. -/
def sanitize_name (name : Str) (max_len : Nat) : Str :=
  if name = [] then []
  else
    let s1 := stripP isPySpace (collapse_ws name)
    let s2 := s1.filter isKeepChar
    let s3 := s2.map spaceToUnderscore
    let s4 := s3.take max_len
    let s5 := stripP isSepChar s4
    if s5 = [] then docDefault else s5

/-- Characters of the class named by the specification for the
sanitizer: A-Za-z0-9 dot underscore hyphen (no space). -/
def isSpecKeep (c : Char) : Bool :=
  c.isAlphanum || c == '-' || c == '_' || c == '.'

/-- Sanitizer as worded by the specification (claim C5): collapse
whitespace runs and trim them, convert spaces to underscores, remove all
characters outside the spec class, cap the length, trim leading and
trailing dots, underscores and hyphens, and return the fixed non-empty
default stem whenever this process yields an empty result. -/
def sanitize_spec (name : Str) (max_len : Nat) : Str :=
  let s1 := stripP isPySpace (collapse_ws name)
  let s2 := s1.map spaceToUnderscore
  let s3 := s2.filter isSpecKeep
  let s4 := s3.take max_len
  let s5 := stripP isSepChar s4
  if s5 = [] then docDefault else s5

theorem filter_keep_map_space (l : Str) :
    (l.filter isKeepChar).map spaceToUnderscore
      = (l.map spaceToUnderscore).filter isSpecKeep := by
  induction l with
  | nil => rfl
  | cons c rest ih =>
    by_cases hc : c = ' '
    · subst hc
      simp only [List.filter_cons, List.map_cons]
      norm_num [isKeepChar, spaceToUnderscore, isSpecKeep, ih]
    · have h1 : isKeepChar c = isSpecKeep c := by
        simp only [isKeepChar, isSpecKeep]
        have : (c == ' ') = false := beq_false_of_ne hc
        rw [this]
        simp [Bool.or_false]
      have h2 : spaceToUnderscore c = c := by simp [spaceToUnderscore, hc]
      simp only [List.filter_cons, List.map_cons, h2, h1]
      cases hs : isSpecKeep c <;> simp [hs, ih, h2]

/-- C5 counterexample: on the empty input the sanitizer returns the
empty string, not the fixed non-empty default stem the claim promises
for every input whose sanitization process empties. -/
theorem sanitize_name_empty_input_violates_claim :
    sanitize_name [] 120 = [] ∧ sanitize_name [] 120 ≠ sanitize_spec [] 120 := by
  constructor
  · rfl
  · decide

/-- C5 (amended): for every non-empty input string the sanitizer agrees
with the specification's pipeline (collapse and trim whitespace, keep
only the class A-Za-z0-9 dot underscore hyphen after converting spaces
to underscores, cap at 120 characters, trim leading and trailing
separators, default stem when empty), and in particular its result is
never empty. -/
theorem sanitize_name_contract (name : Str) (h : name ≠ []) :
    sanitize_name name 120 = sanitize_spec name 120 ∧
      sanitize_name name 120 ≠ [] := by
  have hdflt : ∀ s : Str, (if s = [] then docDefault else s) ≠ [] := by
    intro s
    by_cases hs : s = [] <;> simp [hs, docDefault]
  have key : sanitize_name name 120 = sanitize_spec name 120 := by
    simp only [sanitize_name, sanitize_spec, if_neg h, filter_keep_map_space]
  refine ⟨key, ?_⟩
  rw [key]
  simp only [sanitize_spec]
  exact hdflt _

/-- C5 witness: the amended contract evaluated at a concrete input. -/
theorem sanitize_name_contract_witness :
    sanitize_name (" a  b/c".toList) 120 = sanitize_spec (" a  b/c".toList) 120 ∧
      sanitize_name (" a  b/c".toList) 120 ≠ [] :=
  sanitize_name_contract (" a  b/c".toList) (by decide)

/-- Decimal digit characters used when rendering the collision counter. -/
def digitChar10 (d : Nat) : Char :=
  if d = 0 then '0' else if d = 1 then '1' else if d = 2 then '2'
  else if d = 3 then '3' else if d = 4 then '4' else if d = 5 then '5'
  else if d = 6 then '6' else if d = 7 then '7' else if d = 8 then '8' else '9'

/-- Fuel-driven decimal rendering, most significant digit first; fuel
n + 1 always suffices for input n. -/
def natDecimalAux : Nat → Nat → Str
  | 0, _ => []
  | fuel+1, n =>
    if n < 10 then [digitChar10 n]
    else natDecimalAux fuel (n / 10) ++ [digitChar10 (n % 10)]

/-- Decimal rendering of a natural number, as produced by Python string
formatting of the counter in ensure_unique_name. -/
def natDecimal (n : Nat) : Str := natDecimalAux (n + 1) n

/-- Numeric value of a digit character. -/
def digitVal (c : Char) : Nat := c.toNat - 48

/-- Decimal read-back, a left inverse of natDecimal. -/
def decVal (s : Str) : Nat := s.foldl (fun a c => 10 * a + digitVal c) 0

theorem decVal_append_digit (xs : Str) (c : Char) :
    decVal (xs ++ [c]) = 10 * decVal xs + digitVal c := by
  simp [decVal, List.foldl_append]

theorem decVal_natDecimalAux :
    ∀ fuel n, n + 1 ≤ fuel → decVal (natDecimalAux fuel n) = n := by
  intro fuel
  induction fuel with
  | zero => intro n hn; omega
  | succ f ih =>
    intro n hn
    by_cases h10 : n < 10
    · have hd : ∀ m, m < 10 → decVal [digitChar10 m] = m := by decide
      simp only [natDecimalAux, if_pos h10]
      exact hd n h10
    · have hrec : n / 10 + 1 ≤ f := by omega
      simp only [natDecimalAux, if_neg h10]
      rw [decVal_append_digit, ih _ hrec]
      have hm : ∀ m, m < 10 → digitVal (digitChar10 m) = m := by decide
      rw [hm _ (Nat.mod_lt _ (by omega))]
      omega

theorem natDecimal_injective : Function.Injective natDecimal := by
  intro m n h
  have hm : decVal (natDecimal m) = m := decVal_natDecimalAux (m + 1) m (le_refl _)
  have hn : decVal (natDecimal n) = n := decVal_natDecimalAux (n + 1) n (le_refl _)
  rw [← hm, ← hn, h]

/-- Python str.rpartition at the dot: some (stem, ext) when the string
contains a dot (split at the last one), none otherwise. -/
def rpartExt : Str → Option (Str × Str)
  | [] => none
  | c :: rest =>
    match rpartExt rest with
    | some p => some (c :: p.1, p.2)
    | none => if c = '.' then some ([], rest) else none

/-- The stem and extension used by ensure_unique_name: the rpartition
split when a dot exists, else the whole name with empty extension. -/
def splitStemExt (s : Str) : Str × Str :=
  match rpartExt s with
  | some p => p
  | none => (s, [])

/-- The collision candidate for counter k built by ensure_unique_name:
stem-k.ext when the extension is non-empty, stem-k otherwise. -/
def collisionCand (stem ext : Str) (k : Nat) : Str :=
  if ext = [] then stem ++ '-' :: natDecimal k
  else stem ++ '-' :: (natDecimal k ++ '.' :: ext)

/-- The while loop of ensure_unique_name with explicit fuel: try the
candidates for counters k, k+1, ... until one is outside existing. -/
def ensure_unique_go (stem ext : Str) (existing : Finset Str) :
    Nat → Nat → Option Str
  | _, 0 => none
  | k, fuel+1 =>
    if collisionCand stem ext k ∈ existing then
      ensure_unique_go stem ext existing (k+1) fuel
    else some (collisionCand stem ext k)

/-- ensure_unique_name from dot_watcher.py: return the base name when it
is free, else append -1, -2, ... before the extension until unique.  The
unbounded loop is run with fuel card existing + 1, which always suffices
(the getD default on the fuel-exhausted branch is never reached). -/
def ensure_unique_name (base_name : Str) (existing : Finset Str) : Str :=
  if base_name ∈ existing then
    let p := splitStemExt base_name
    (ensure_unique_go p.1 p.2 existing 1 (existing.card + 1)).getD base_name
  else base_name

theorem collisionCand_injective (stem ext : Str) :
    Function.Injective (collisionCand stem ext) := by
  intro k k' h
  apply natDecimal_injective
  by_cases he : ext = []
  · simp only [collisionCand, if_pos he] at h
    exact (List.cons.inj (List.append_cancel_left h)).2
  · simp only [collisionCand, if_neg he] at h
    have h2 := (List.cons.inj (List.append_cancel_left h)).2
    exact List.append_cancel_right h2

theorem exists_free_collisionCand (stem ext : Str) (existing : Finset Str)
    (k : Nat) :
    ∃ j, j ≤ existing.card ∧ collisionCand stem ext (k + j) ∉ existing := by
  by_contra hall
  push_neg at hall
  have hsub : (Finset.range (existing.card + 1)).image
      (fun j => collisionCand stem ext (k + j)) ⊆ existing := by
    intro x hx
    rcases Finset.mem_image.mp hx with ⟨j, hj, rfl⟩
    exact hall j (Nat.lt_succ_iff.mp (Finset.mem_range.mp hj))
  have hinj : Function.Injective (fun j => collisionCand stem ext (k + j)) := by
    intro a b hab
    have := collisionCand_injective stem ext hab
    omega
  have hcard := Finset.card_le_card hsub
  rw [Finset.card_image_of_injective _ hinj, Finset.card_range] at hcard
  omega

theorem ensure_unique_go_spec (stem ext : Str) (existing : Finset Str) :
    ∀ fuel k, (∃ j, j < fuel ∧ collisionCand stem ext (k + j) ∉ existing) →
      ∃ c, ensure_unique_go stem ext existing k fuel = some c ∧
        c ∉ existing ∧ ∃ m, k ≤ m ∧ c = collisionCand stem ext m := by
  intro fuel
  induction fuel with
  | zero => intro k ⟨j, hj, _⟩; omega
  | succ f ih =>
    intro k ⟨j, hj, hfree⟩
    by_cases hmem : collisionCand stem ext k ∈ existing
    · have hj0 : j ≠ 0 := by
        intro h0
        rw [h0, Nat.add_zero] at hfree
        exact hfree hmem
      obtain ⟨j', rfl⟩ : ∃ j', j = j' + 1 := ⟨j - 1, by omega⟩
      have hstep : ∃ j, j < f ∧ collisionCand stem ext (k + 1 + j) ∉ existing := by
        refine ⟨j', by omega, ?_⟩
        have : k + 1 + j' = k + (j' + 1) := by omega
        rw [this]
        exact hfree
      obtain ⟨c, hc, hcf, m, hm, hcm⟩ := ih (k + 1) hstep
      refine ⟨c, ?_, hcf, m, by omega, hcm⟩
      simp only [ensure_unique_go, if_pos hmem]
      exact hc
    · refine ⟨collisionCand stem ext k, ?_, hmem, k, le_refl _, rfl⟩
      simp only [ensure_unique_go, if_neg hmem]

theorem ensure_unique_spec (base : Str) (existing : Finset Str) :
    ensure_unique_name base existing ∉ existing ∧
      (base ∉ existing → ensure_unique_name base existing = base) ∧
      (ensure_unique_name base existing = base ∨
        ∃ k, 1 ≤ k ∧ ensure_unique_name base existing
          = collisionCand (splitStemExt base).1 (splitStemExt base).2 k) := by
  by_cases hb : base ∈ existing
  · obtain ⟨j, hj, hfree⟩ :=
      exists_free_collisionCand (splitStemExt base).1 (splitStemExt base).2
        existing 1
    obtain ⟨c, hc, hcf, m, hm, hcm⟩ :=
      ensure_unique_go_spec (splitStemExt base).1 (splitStemExt base).2 existing
        (existing.card + 1) 1 ⟨j, by omega, hfree⟩
    have hval : ensure_unique_name base existing = c := by
      simp only [ensure_unique_name, if_pos hb, hc, Option.getD_some]
    refine ⟨by rw [hval]; exact hcf, fun hnb => absurd hb hnb, Or.inr ⟨m, hm, ?_⟩⟩
    rw [hval, hcm]
  · have hval : ensure_unique_name base existing = base := by
      simp only [ensure_unique_name, if_neg hb]
    exact ⟨by rw [hval]; exact hb, fun _ => hval, Or.inl hval⟩

/-- C10: the uniqueness routine terminates -- with fuel card existing + 1
the counter loop reaches a candidate outside the finite existing set --
its result is never a member of the existing-names set, and a base name
that is not in the set is returned verbatim. -/
theorem ensure_unique_name_total (base : Str) (existing : Finset Str) :
    (∃ c, ensure_unique_go (splitStemExt base).1 (splitStemExt base).2 existing
        1 (existing.card + 1) = some c) ∧
      ensure_unique_name base existing ∉ existing ∧
      (base ∉ existing → ensure_unique_name base existing = base) := by
  obtain ⟨j, hj, hfree⟩ :=
    exists_free_collisionCand (splitStemExt base).1 (splitStemExt base).2
      existing 1
  obtain ⟨c, hc, -⟩ :=
    ensure_unique_go_spec (splitStemExt base).1 (splitStemExt base).2 existing
      (existing.card + 1) 1 ⟨j, by omega, hfree⟩
  obtain ⟨h1, h2, -⟩ := ensure_unique_spec base existing
  exact ⟨⟨c, hc⟩, h1, h2⟩

/-- C10 witness: termination and freshness at a concrete base name and
a concrete two-element existing set, and the verbatim return at a free
base name. -/
theorem ensure_unique_name_total_witness :
    (∃ c, ensure_unique_go (splitStemExt "a.pdf".toList).1
        (splitStemExt "a.pdf".toList).2
        ({"a.pdf".toList, "a-1.pdf".toList} : Finset Str)
        1 (({"a.pdf".toList, "a-1.pdf".toList} : Finset Str).card + 1) = some c) ∧
      ensure_unique_name "a.pdf".toList
          ({"a.pdf".toList, "a-1.pdf".toList} : Finset Str)
        ∉ ({"a.pdf".toList, "a-1.pdf".toList} : Finset Str) ∧
      ensure_unique_name "b.pdf".toList ({"a.pdf".toList} : Finset Str)
        = "b.pdf".toList :=
  ⟨(ensure_unique_name_total "a.pdf".toList
      ({"a.pdf".toList, "a-1.pdf".toList} : Finset Str)).1,
   (ensure_unique_name_total "a.pdf".toList
      ({"a.pdf".toList, "a-1.pdf".toList} : Finset Str)).2.1,
   (ensure_unique_name_total "b.pdf".toList
      ({"a.pdf".toList} : Finset Str)).2.2 (by decide)⟩

/-- One scraped listing row, as produced by scrape_all_rows. -/
structure Row where
  title : Str
  publish_date : Str
  pdf_url : Str
deriving DecidableEq

/-- Value of a hexadecimal digit character, if any. -/
def hexVal (c : Char) : Option Nat :=
  if '0' ≤ c ∧ c ≤ '9' then some (c.toNat - 48)
  else if 'a' ≤ c ∧ c ≤ 'f' then some (c.toNat - 87)
  else if 'A' ≤ c ∧ c ≤ 'F' then some (c.toNat - 55)
  else none

/-- Modelled from urllib.parse.unquote restricted to single-byte escapes
(faithful for ASCII): a percent sign followed by two hex digits decodes
to that code point, other percent signs are kept literally. -/
def pyUnquote : Str → Str
  | [] => []
  | '%' :: a :: b :: rest =>
    match hexVal a, hexVal b with
    | some x, some y => Char.ofNat (16 * x + y) :: pyUnquote rest
    | _, _ => '%' :: pyUnquote (a :: b :: rest)
  | c :: rest => c :: pyUnquote rest

/-- Characters urlparse allows inside a scheme after the first letter. -/
def isSchemeChar (c : Char) : Bool :=
  c.isAlphanum || c == '+' || c == '-' || c == '.'

/-- Modelled from urllib.parse.urlparse: whether the string starts with
a scheme followed by a colon. -/
def hasScheme (s : Str) : Bool :=
  let pre := s.takeWhile (fun c => c != ':')
  decide (pre.length < s.length) && !pre.isEmpty &&
    (match pre with
     | c :: _ => c.isAlpha
     | [] => false) && pre.all isSchemeChar

/-- Modelled from urllib.parse.urlparse: the path component of a URL --
drop the query and fragment, drop a scheme, and drop a leading
double-slash netloc up to the next slash. -/
def urlPath (url : Str) : Str :=
  let s := url.takeWhile (fun c => c != '?' && c != '#')
  let s2 := if hasScheme s then (s.dropWhile (fun c => c != ':')).drop 1 else s
  match s2 with
  | '/' :: '/' :: r => r.dropWhile (fun c => c != '/')
  | _ => s2

/-- filename_from_url from dot_watcher.py: the unquoted last path
segment of the URL, empty when there is none. -/
def filename_from_url (url : Str) : Str :=
  if url = [] then []
  else pyUnquote ((urlPath url).reverse.takeWhile (fun c => c != '/')).reverse

/-- The ASCII uppercase-to-lowercase table used to model str.lower. -/
def upperLowerTable : List (Char × Char) :=
  [('A', 'a'), ('B', 'b'), ('C', 'c'), ('D', 'd'), ('E', 'e'), ('F', 'f'),
   ('G', 'g'), ('H', 'h'), ('I', 'i'), ('J', 'j'), ('K', 'k'), ('L', 'l'),
   ('M', 'm'), ('N', 'n'), ('O', 'o'), ('P', 'p'), ('Q', 'q'), ('R', 'r'),
   ('S', 's'), ('T', 't'), ('U', 'u'), ('V', 'v'), ('W', 'w'), ('X', 'x'),
   ('Y', 'y'), ('Z', 'z')]

/-- ASCII lowercasing, as str.lower behaves on the suffix test inputs,
written as a lookup in the explicit table over the uppercase letters. -/
def lowerChar (c : Char) : Char :=
  match upperLowerTable.find? (fun p => p.1 == c) with
  | some p => p.2
  | none => c

/-- str.lower over a whole string. -/
def lowerStr (s : Str) : Str := s.map lowerChar

/-- The literal string dot p d f. -/
def dotPdf : Str := ".pdf".toList

/-- The test written name.lower().endswith(dot pdf) in the source. -/
def endsPdf (s : Str) : Bool := dotPdf.isSuffixOf (lowerStr s)

/-- The base-name computation of make_pdf_filename from dot_watcher.py,
before the uniqueness step: use the sanitized URL filename when the URL
filename ends in .pdf, else sanitize title plus compacted date, and
append .pdf when the lowercased candidate does not already end in it. -/
def derive_base (item : Row) : Str :=
  let url_name := filename_from_url item.pdf_url
  if url_name ≠ [] ∧ endsPdf url_name = true then
    let base := sanitize_name url_name 120
    if endsPdf base = true then base else base ++ dotPdf
  else
    let title := if item.title = [] then docDefault else item.title
    let date_compact := (item.publish_date.filter Char.isDigit).take 8
    let joined := if date_compact = [] then title else title ++ '_' :: date_compact
    let suggested := sanitize_name joined 120
    if endsPdf suggested = true then suggested else suggested ++ dotPdf

/-- make_pdf_filename from dot_watcher.py: derive the base name, make it
unique against existing_names, and return it together with the updated
set (the Python code mutates the set in place). -/
def make_pdf_filename (item : Row) (existing_names : Finset Str) :
    Str × Finset Str :=
  let final := ensure_unique_name (derive_base item) existing_names
  (final, insert final existing_names)

/-- The per-row filename assignment loop of main in dot_watcher.py,
returning the list of names it assigns. -/
def assign_filenames : List Row → Finset Str → List Str
  | [], _ => []
  | r :: rs, ex =>
    let p := make_pdf_filename r ex
    p.1 :: assign_filenames rs p.2

theorem assign_filenames_fresh :
    ∀ (items : List Row) (ex : Finset Str),
      (assign_filenames items ex).Pairwise (· ≠ ·) ∧
        ∀ nm ∈ assign_filenames items ex, nm ∉ ex := by
  intro items
  induction items with
  | nil =>
    intro ex
    exact ⟨List.Pairwise.nil, by intro nm h; simp [assign_filenames] at h⟩
  | cons r rs ih =>
    intro ex
    obtain ⟨hpw, hfresh⟩ :=
      ih (insert (ensure_unique_name (derive_base r) ex) ex)
    have hn1 : ensure_unique_name (derive_base r) ex ∉ ex :=
      (ensure_unique_spec (derive_base r) ex).1
    have hshape : assign_filenames (r :: rs) ex
        = ensure_unique_name (derive_base r) ex ::
          assign_filenames rs (insert (ensure_unique_name (derive_base r) ex) ex) := by
      simp [assign_filenames, make_pdf_filename]
    constructor
    · rw [hshape]
      refine List.Pairwise.cons ?_ hpw
      intro nm hnm
      intro heq
      exact hfresh nm hnm (heq ▸ Finset.mem_insert_self _ _)
    · rw [hshape]
      intro nm hnm
      rcases List.mem_cons.mp hnm with h | h
      · rw [h]; exact hn1
      · intro hex
        exact hfresh nm h (Finset.mem_insert_of_mem hex)

theorem assign_filenames_shape :
    ∀ (items : List Row) (ex : Finset Str) (nm : Str),
      nm ∈ assign_filenames items ex →
      ∃ r, r ∈ items ∧ (nm = derive_base r ∨ ∃ k, 1 ≤ k ∧
        nm = collisionCand (splitStemExt (derive_base r)).1
          (splitStemExt (derive_base r)).2 k) := by
  intro items
  induction items with
  | nil => intro ex nm h; simp [assign_filenames] at h
  | cons r rs ih =>
    intro ex nm hnm
    have hshape : assign_filenames (r :: rs) ex
        = ensure_unique_name (derive_base r) ex ::
          assign_filenames rs (insert (ensure_unique_name (derive_base r) ex) ex) := by
      simp [assign_filenames, make_pdf_filename]
    rw [hshape] at hnm
    rcases List.mem_cons.mp hnm with h | h
    · refine ⟨r, List.mem_cons_self r rs, ?_⟩
      obtain ⟨-, -, hsh⟩ := ensure_unique_spec (derive_base r) ex
      rcases hsh with hsh | ⟨k, hk, hsh⟩
      · exact Or.inl (h.trans hsh)
      · exact Or.inr ⟨k, hk, h.trans hsh⟩
    · obtain ⟨r', hr', hshp⟩ := ih _ nm h
      exact ⟨r', List.mem_cons_of_mem r hr', hshp⟩

/-- C2: for a batch whose entries all resolve to the same derived base
name, the filename assignment yields pairwise-distinct names, none of
which collides with the pre-existing store names, and every assigned
name is either the base itself or the base with a suffix -k (k at least
1) inserted before the extension; the winning name is added to the set
immediately, which is what makes uniqueness hold across the batch as
well as against the store. -/
theorem batch_filename_uniqueness (items : List Row) (ex : Finset Str)
    (b : Str) (hb : ∀ r ∈ items, derive_base r = b) :
    (assign_filenames items ex).Pairwise (· ≠ ·) ∧
      (∀ nm ∈ assign_filenames items ex, nm ∉ ex) ∧
      (∀ nm ∈ assign_filenames items ex,
        nm = b ∨ ∃ k, 1 ≤ k ∧
          nm = collisionCand (splitStemExt b).1 (splitStemExt b).2 k) := by
  obtain ⟨hpw, hfresh⟩ := assign_filenames_fresh items ex
  refine ⟨hpw, hfresh, ?_⟩
  intro nm hnm
  obtain ⟨r, hr, hshp⟩ := assign_filenames_shape items ex nm hnm
  rw [hb r hr] at hshp
  exact hshp

/-- C2 witness: two rows with the same derived base name against an
empty store get distinct names of the demanded shape. -/
theorem batch_filename_uniqueness_witness :
    (assign_filenames [⟨"A".toList, [], []⟩, ⟨"A".toList, [], []⟩]
        (∅ : Finset Str)).Pairwise (· ≠ ·) ∧
      (∀ nm ∈ assign_filenames [⟨"A".toList, [], []⟩, ⟨"A".toList, [], []⟩]
        (∅ : Finset Str), nm ∉ (∅ : Finset Str)) ∧
      (∀ nm ∈ assign_filenames [⟨"A".toList, [], []⟩, ⟨"A".toList, [], []⟩]
        (∅ : Finset Str),
        nm = "A.pdf".toList ∨ ∃ k, 1 ≤ k ∧
          nm = collisionCand (splitStemExt "A.pdf".toList).1
            (splitStemExt "A.pdf".toList).2 k) :=
  batch_filename_uniqueness
    [⟨"A".toList, [], []⟩, ⟨"A".toList, [], []⟩] ∅ "A.pdf".toList (by decide)

theorem lowerChar_eq_dot {c : Char} (h : lowerChar c = '.') : c = '.' := by
  unfold lowerChar at h
  cases hf : upperLowerTable.find? (fun p => p.1 == c) with
  | none => rw [hf] at h; exact h
  | some p =>
    rw [hf] at h
    have hmem : p ∈ upperLowerTable := List.mem_of_find?_eq_some hf
    have hno : ∀ q ∈ upperLowerTable, q.2 ≠ '.' := by decide
    exact absurd h (hno p hmem)

theorem lowerChar_dot : lowerChar '.' = '.' := by decide

theorem rpartExt_dotfree : ∀ ys : Str, (∀ c ∈ ys, c ≠ '.') → rpartExt ys = none := by
  intro ys
  induction ys with
  | nil => intro _; rfl
  | cons c rest ih =>
    intro hys
    have hrest := ih (fun d hd => hys d (List.mem_cons_of_mem c hd))
    have hc : c ≠ '.' := hys c (List.mem_cons_self c rest)
    simp [rpartExt, hrest, hc]

theorem rpartExt_append_dot (xs ys : Str) (hys : ∀ c ∈ ys, c ≠ '.') :
    rpartExt (xs ++ '.' :: ys) = some (xs, ys) := by
  induction xs with
  | nil => simp [rpartExt, rpartExt_dotfree ys hys]
  | cons c r ih => simp [rpartExt, ih]

theorem dotPdf_chars : dotPdf = ['.', 'p', 'd', 'f'] := by decide

theorem endsPdf_split (base : Str) (h : dotPdf <:+ lowerStr base) :
    ∃ t e, base = t ++ '.' :: e ∧ (∀ c ∈ e, c ≠ '.') ∧ e ≠ [] ∧
      lowerStr e = "pdf".toList := by
  obtain ⟨t0, ht⟩ := h
  obtain ⟨u, hu_def⟩ : ∃ u, base.drop t0.length = u := ⟨_, rfl⟩
  have hsplit : base = base.take t0.length ++ u := by
    rw [← hu_def, List.take_append_drop]
  have hu : lowerStr u = dotPdf := by
    rw [← hu_def]
    have hmap : lowerStr (base.drop t0.length) = (lowerStr base).drop t0.length := by
      simp [lowerStr, List.map_drop]
    rw [hmap, ← ht, List.drop_left]
  have hlen : u.length = 4 := by
    have hl := congrArg List.length hu
    rw [dotPdf_chars] at hl
    simpa [lowerStr] using hl
  rcases u with _ | ⟨a, u⟩
  · simp at hlen
  rcases u with _ | ⟨b, u⟩
  · simp at hlen
  rcases u with _ | ⟨c, u⟩
  · simp at hlen
  rcases u with _ | ⟨d, u⟩
  · simp at hlen
  rcases u with _ | ⟨x, u⟩
  case cons => simp at hlen
  obtain ⟨ha, hb, hc, hd⟩ : lowerChar a = '.' ∧ lowerChar b = 'p' ∧
      lowerChar c = 'd' ∧ lowerChar d = 'f' := by
    rw [dotPdf_chars] at hu
    simp only [lowerStr, List.map_cons, List.map_nil] at hu
    have h1 := List.cons.inj hu
    have h2 := List.cons.inj h1.2
    have h3 := List.cons.inj h2.2
    have h4 := List.cons.inj h3.2
    exact ⟨h1.1, h2.1, h3.1, h4.1⟩
  have ha' : a = '.' := lowerChar_eq_dot ha
  subst ha'
  refine ⟨base.take t0.length, [b, c, d], hsplit, ?_, by simp, ?_⟩
  · intro ch hch hdot
    subst hdot
    simp only [List.mem_cons, List.not_mem_nil, or_false] at hch
    rcases hch with rfl | rfl | rfl
    · rw [lowerChar_dot] at hb; exact absurd hb (by decide)
    · rw [lowerChar_dot] at hc; exact absurd hc (by decide)
    · rw [lowerChar_dot] at hd; exact absurd hd (by decide)
  · have hpdf : "pdf".toList = ['p', 'd', 'f'] := by decide
    rw [hpdf]
    simp [lowerStr, hb, hc, hd]

theorem splitStemExt_of_pdf (base : Str) (h : dotPdf <:+ lowerStr base) :
    (splitStemExt base).2 ≠ [] ∧
      lowerStr ('.' :: (splitStemExt base).2) = dotPdf := by
  obtain ⟨t, e, hb, hdf, hne, hle⟩ := endsPdf_split base h
  have hsplit : splitStemExt base = (t, e) := by
    rw [hb, splitStemExt, rpartExt_append_dot t e hdf]
  rw [hsplit]
  refine ⟨hne, ?_⟩
  have hcons : lowerStr ('.' :: e) = lowerChar '.' :: lowerStr e := by
    simp [lowerStr]
  rw [hcons, lowerChar_dot, hle, dotPdf_chars]
  have hpdf : "pdf".toList = ['p', 'd', 'f'] := by decide
  rw [hpdf]

theorem collisionCand_pdf (stem e : Str) (k : Nat) (hne : e ≠ [])
    (hsuf : lowerStr ('.' :: e) = dotPdf) :
    dotPdf <:+ lowerStr (collisionCand stem e k) := by
  simp only [collisionCand, if_neg hne]
  have hassoc : stem ++ '-' :: (natDecimal k ++ '.' :: e)
      = (stem ++ '-' :: natDecimal k) ++ '.' :: e := by
    simp
  rw [hassoc]
  have hmap : lowerStr ((stem ++ '-' :: natDecimal k) ++ '.' :: e)
      = lowerStr (stem ++ '-' :: natDecimal k) ++ lowerStr ('.' :: e) := by
    simp [lowerStr]
  rw [hmap, hsuf]
  exact List.suffix_append _ _

theorem ensure_unique_preserves_pdf (base : Str) (existing : Finset Str)
    (h : dotPdf <:+ lowerStr base) :
    dotPdf <:+ lowerStr (ensure_unique_name base existing) := by
  obtain ⟨-, -, hsh⟩ := ensure_unique_spec base existing
  rcases hsh with hsh | ⟨k, -, hsh⟩
  · rw [hsh]; exact h
  · obtain ⟨hne, hsuf⟩ := splitStemExt_of_pdf base h
    rw [hsh]
    exact collisionCand_pdf _ _ k hne hsuf

theorem derive_base_pdf (item : Row) :
    dotPdf <:+ lowerStr (derive_base item) := by
  have happ : ∀ s : Str, dotPdf <:+ lowerStr (s ++ dotPdf) := by
    intro s
    have hld : lowerStr dotPdf = dotPdf := by decide
    have hlp : lowerStr (s ++ dotPdf) = lowerStr s ++ dotPdf := by
      simp only [lowerStr, List.map_append]
      rw [show List.map lowerChar dotPdf = dotPdf from hld]
    rw [hlp]
    exact List.suffix_append _ _
  have hends : ∀ s : Str, endsPdf s = true → dotPdf <:+ lowerStr s := by
    intro s hs
    simpa [endsPdf] using hs
  have hbranch : ∀ s : Str,
      dotPdf <:+ lowerStr (if endsPdf s = true then s else s ++ dotPdf) := by
    intro s
    by_cases hs : endsPdf s = true
    · rw [if_pos hs]; exact hends _ hs
    · rw [if_neg hs]; exact happ _
  simp only [derive_base]
  by_cases h1 : filename_from_url item.pdf_url ≠ [] ∧
      endsPdf (filename_from_url item.pdf_url) = true
  · rw [if_pos h1]; exact hbranch _
  · rw [if_neg h1]; exact hbranch _

/-- C9 counterexample: a row whose title ends in uppercase .PDF gets the
name A.PDF, which does not literally end with the lowercase string .pdf,
refuting the claim as stated. -/
theorem make_pdf_filename_extension_counterexample :
    ¬ dotPdf <:+ (make_pdf_filename ⟨"A.PDF".toList, [], []⟩ ∅).1 := by
  decide

/-- C9 (amended): for every input row (any title, publish date and URL,
including empty ones) and every existing-names set, the filename builder
returns a name that ends with .pdf up to ASCII case (its lowercasing
ends with .pdf), in both the URL-derived branch and the title-plus-date
fallback branch, and the collision-suffix step preserves this
extension. -/
theorem make_pdf_filename_extension (item : Row) (existing : Finset Str) :
    dotPdf <:+ lowerStr (make_pdf_filename item existing).1 :=
  ensure_unique_preserves_pdf _ _ (derive_base_pdf item)

/-- One persisted data row of the master CSV of dot_watcher.py. -/
structure StoreRow where
  title : Str
  publish_date : Str
  pdf_url : Str
  pdf_filename : Str
deriving DecidableEq

/-- load_seen_ids_and_names from dot_watcher.py over the data rows of
the master CSV: the set of non-empty pdf_url values, and the set of
non-empty pdf_filename values, inferring sanitize_name of the URL
filename when the filename column is empty (older CSV schema). -/
def load_seen_ids_and_names : List StoreRow → Finset Str × Finset Str
  | [] => (∅, ∅)
  | r :: rest =>
    let p := load_seen_ids_and_names rest
    (if r.pdf_url ≠ [] then insert r.pdf_url p.1 else p.1,
     if r.pdf_filename ≠ [] then insert r.pdf_filename p.2
     else if r.pdf_url ≠ [] ∧ filename_from_url r.pdf_url ≠ [] then
       insert (sanitize_name (filename_from_url r.pdf_url) 120) p.2
     else p.2)

/-- The deduplication step of both watchers: keep the candidates whose
pdf_url is not among the seen keys, in order. -/
def diff_new (rows : List Row) (seen : Finset Str) : List Row :=
  rows.filter (fun r => decide (r.pdf_url ∉ seen))

/-- append_to_master from dot_watcher.py: write the new rows after the
existing rows, never touching them. -/
def append_to_master (store new_rows : List StoreRow) : List StoreRow :=
  store ++ new_rows

/-- The per-row loop of main in dot_watcher.py attaching a fresh
pdf_filename to every new row. -/
def add_names : List Row → Finset Str → List StoreRow
  | [], _ => []
  | r :: rs, ex =>
    let p := make_pdf_filename r ex
    ⟨r.title, r.publish_date, r.pdf_url, p.1⟩ :: add_names rs p.2

/-- Outcome of one run of main in dot_watcher.py: the exit signal, the
master store after the run, and the rows appended by the run. -/
structure RunResult where
  exit_code : Nat
  store : List StoreRow
  appended : List StoreRow
deriving DecidableEq

/-- main from dot_watcher.py over an already-fetched listing: none
models a scraping failure (SystemExit 1); an empty listing exits 0 with
no store mutation; otherwise the candidates are diffed against the seen
keys and the new rows, if any, are given filenames and appended. -/
def main_run (fetched : Option (List Row)) (store : List StoreRow) : RunResult :=
  match fetched with
  | none => ⟨1, store, []⟩
  | some rows =>
    if rows = [] then ⟨0, store, []⟩
    else
      let seen := load_seen_ids_and_names store
      let new_raw := diff_new rows seen.1
      if new_raw = [] then ⟨0, store, []⟩
      else
        let new_rows := add_names new_raw seen.2
        ⟨0, append_to_master store new_rows, new_rows⟩

/-- C4: the diff step returns a sublist of the candidates (relative
order preserved), whose members are exactly the candidates whose pdf_url
is outside the seen-key set, with multiplicity preserved; as a pure
function it modifies neither its inputs. -/
theorem diff_new_correct (rows : List Row) (seen : Finset Str) :
    List.Sublist (diff_new rows seen) rows ∧
      (∀ r, r ∈ diff_new rows seen ↔ r ∈ rows ∧ r.pdf_url ∉ seen) ∧
      (∀ r : Row, r.pdf_url ∉ seen →
        (diff_new rows seen).count r = rows.count r) := by
  refine ⟨List.filter_sublist rows, ?_, ?_⟩
  · intro r
    simp [diff_new]
  · intro r hr
    exact List.count_filter (by simpa using hr)

theorem main_run_no_new (store : List StoreRow) (rows : List Row)
    (hne : rows ≠ [])
    (hdiff : diff_new rows (load_seen_ids_and_names store).1 = []) :
    main_run (some rows) store = ⟨0, store, []⟩ := by
  simp [main_run, hne, hdiff]

/-- C4 witness: the diff characterization applied at a concrete listing
with one seen and one unseen candidate. -/
theorem diff_new_correct_witness :
    List.Sublist
        (diff_new [⟨"A".toList, [], "u1".toList⟩, ⟨"B".toList, [], "u2".toList⟩]
          ({"u1".toList} : Finset Str))
        [⟨"A".toList, [], "u1".toList⟩, ⟨"B".toList, [], "u2".toList⟩] ∧
      (diff_new [⟨"A".toList, [], "u1".toList⟩, ⟨"B".toList, [], "u2".toList⟩]
          ({"u1".toList} : Finset Str)).count ⟨"B".toList, [], "u2".toList⟩
        = ([⟨"A".toList, [], "u1".toList⟩,
            ⟨"B".toList, [], "u2".toList⟩] : List Row).count
            ⟨"B".toList, [], "u2".toList⟩ :=
  ⟨(diff_new_correct [⟨"A".toList, [], "u1".toList⟩, ⟨"B".toList, [], "u2".toList⟩]
      ({"u1".toList} : Finset Str)).1,
   (diff_new_correct [⟨"A".toList, [], "u1".toList⟩, ⟨"B".toList, [], "u2".toList⟩]
      ({"u1".toList} : Finset Str)).2.2 ⟨"B".toList, [], "u2".toList⟩ (by decide)⟩

/-- C7: a failed listing fetch exits 1 and mutates nothing; an empty
parsed listing exits 0 and mutates nothing; a non-empty listing with no
new entries after deduplication exits 0 and appends nothing. -/
theorem main_run_exit_behaviour (store : List StoreRow) (rows : List Row) :
    main_run none store = ⟨1, store, []⟩ ∧
      main_run (some []) store = ⟨0, store, []⟩ ∧
      (rows ≠ [] → diff_new rows (load_seen_ids_and_names store).1 = [] →
        main_run (some rows) store = ⟨0, store, []⟩) := by
  exact ⟨rfl, rfl, main_run_no_new store rows⟩

/-- C7 witness: the three exit behaviours at a concrete store and a
concrete listing already fully recorded in the store. -/
theorem main_run_exit_behaviour_witness :
    main_run none [⟨"T".toList, "D".toList, "u".toList, "u.pdf".toList⟩]
        = ⟨1, [⟨"T".toList, "D".toList, "u".toList, "u.pdf".toList⟩], []⟩ ∧
      main_run (some []) [⟨"T".toList, "D".toList, "u".toList, "u.pdf".toList⟩]
        = ⟨0, [⟨"T".toList, "D".toList, "u".toList, "u.pdf".toList⟩], []⟩ ∧
      main_run (some [⟨"T".toList, "D".toList, "u".toList⟩])
          [⟨"T".toList, "D".toList, "u".toList, "u.pdf".toList⟩]
        = ⟨0, [⟨"T".toList, "D".toList, "u".toList, "u.pdf".toList⟩], []⟩ :=
  ⟨(main_run_exit_behaviour
      [⟨"T".toList, "D".toList, "u".toList, "u.pdf".toList⟩]
      [⟨"T".toList, "D".toList, "u".toList⟩]).1,
   (main_run_exit_behaviour
      [⟨"T".toList, "D".toList, "u".toList, "u.pdf".toList⟩]
      [⟨"T".toList, "D".toList, "u".toList⟩]).2.1,
   (main_run_exit_behaviour
      [⟨"T".toList, "D".toList, "u".toList, "u.pdf".toList⟩]
      [⟨"T".toList, "D".toList, "u".toList⟩]).2.2 (by decide) (by decide)⟩

theorem load_urls_append (a b : List StoreRow) :
    (load_seen_ids_and_names (a ++ b)).1
      = (load_seen_ids_and_names a).1 ∪ (load_seen_ids_and_names b).1 := by
  induction a with
  | nil => simp [load_seen_ids_and_names]
  | cons r rest ih =>
    simp only [List.cons_append, load_seen_ids_and_names]
    by_cases hu : r.pdf_url ≠ []
    · simp [hu, ih, Finset.insert_union]
    · simp [hu, ih]

theorem mem_load_urls (store : List StoreRow) (r : StoreRow)
    (hr : r ∈ store) (hu : r.pdf_url ≠ []) :
    r.pdf_url ∈ (load_seen_ids_and_names store).1 := by
  induction store with
  | nil => cases hr
  | cons s rest ih =>
    simp only [load_seen_ids_and_names]
    rcases List.mem_cons.mp hr with rfl | hmem
    · simp [hu]
    · by_cases hs : s.pdf_url ≠ []
      · simp only [if_pos hs]
        exact Finset.mem_insert_of_mem (ih hmem)
      · simp only [if_neg hs]
        exact ih hmem

theorem add_names_urls (l : List Row) (ex : Finset Str) :
    (add_names l ex).map StoreRow.pdf_url = l.map Row.pdf_url := by
  induction l generalizing ex with
  | nil => rfl
  | cons r rs ih => simp [add_names, ih]

/-- C1: dedup idempotence.  For every initial store and candidate
sequence (whose entries carry the parser-guaranteed non-empty source
URL), running the pipeline once and then running it again with the same
candidates makes the second run detect zero new entries, append nothing,
exit 0, and leave the store exactly as the first run left it. -/
theorem dedup_idempotent (store : List StoreRow) (rows : List Row)
    (hv : ∀ r ∈ rows, r.pdf_url ≠ []) :
    main_run (some rows) (main_run (some rows) store).store
        = ⟨0, (main_run (some rows) store).store, []⟩ ∧
      diff_new rows
        (load_seen_ids_and_names (main_run (some rows) store).store).1 = [] := by
  by_cases hrows : rows = []
  · subst hrows
    exact ⟨rfl, rfl⟩
  · by_cases hdiff : diff_new rows (load_seen_ids_and_names store).1 = []
    · have hs1 : (main_run (some rows) store).store = store := by
        simp [main_run, hrows, hdiff]
      rw [hs1]
      exact ⟨main_run_no_new store rows hrows hdiff, hdiff⟩
    · have hs1 : (main_run (some rows) store).store
          = store ++ add_names (diff_new rows (load_seen_ids_and_names store).1)
              (load_seen_ids_and_names store).2 := by
        simp [main_run, hrows, hdiff, append_to_master]
      have hall : ∀ r ∈ rows, r.pdf_url ∈
          (load_seen_ids_and_names (main_run (some rows) store).store).1 := by
        intro r hr
        rw [hs1, load_urls_append]
        by_cases hseen : r.pdf_url ∈ (load_seen_ids_and_names store).1
        · exact Finset.mem_union_left _ hseen
        · refine Finset.mem_union_right _ ?_
          have hmemdiff : r ∈ diff_new rows (load_seen_ids_and_names store).1 := by
            simp [diff_new, hr, hseen]
          have hurl : r.pdf_url ∈ (diff_new rows
              (load_seen_ids_and_names store).1).map Row.pdf_url :=
            List.mem_map_of_mem Row.pdf_url hmemdiff
          rw [← add_names_urls _ (load_seen_ids_and_names store).2] at hurl
          obtain ⟨sr, hsr, hsru⟩ := List.mem_map.mp hurl
          rw [← hsru]
          exact mem_load_urls _ sr hsr (by rw [hsru]; exact hv r hr)
      have hdiff2 : diff_new rows
          (load_seen_ids_and_names (main_run (some rows) store).store).1 = [] := by
        rw [diff_new, List.filter_eq_nil_iff]
        intro r hr
        simp only [decide_eq_true_eq, Decidable.not_not]
        exact hall r hr
      exact ⟨main_run_no_new _ rows hrows hdiff2, hdiff2⟩

/-- C1 witness: a concrete first run appends one row, and the second
run with the same listing is a no-op on the store. -/
theorem dedup_idempotent_witness :
    main_run (some [⟨"B".toList, "D".toList, "u2".toList⟩])
        (main_run (some [⟨"B".toList, "D".toList, "u2".toList⟩]) []).store
        = ⟨0, (main_run (some [⟨"B".toList, "D".toList, "u2".toList⟩]) []).store, []⟩ ∧
      diff_new [⟨"B".toList, "D".toList, "u2".toList⟩]
        (load_seen_ids_and_names
          (main_run (some [⟨"B".toList, "D".toList, "u2".toList⟩]) []).store).1 = [] :=
  dedup_idempotent [] [⟨"B".toList, "D".toList, "u2".toList⟩] (by decide)

/-- The while loop of chunk_text from watch_dot_circulars.py with
explicit fuel (length s + 1 always suffices when overlap < chunk_size):
at position i take the window up to j = min (i + chunk_size) (length s),
then continue at j - overlap while j is not the end.  The Python clamp
of a negative next index to zero is the Nat truncated subtraction. -/
def chunk_text_go (s : Str) (chunk_size overlap : Nat) : Nat → Nat → List Str
  | _, 0 => []
  | i, fuel+1 =>
    if i < s.length then
      (s.drop i).take (min (i + chunk_size) s.length - i) ::
        chunk_text_go s chunk_size overlap
          (if min (i + chunk_size) s.length < s.length then
            min (i + chunk_size) s.length - overlap
          else min (i + chunk_size) s.length) fuel
    else []

/-- chunk_text from watch_dot_circulars.py: empty text gives no chunks,
otherwise chunk_size windows overlapping by overlap characters. -/
def chunk_text (s : Str) (chunk_size overlap : Nat) : List Str :=
  if s = [] then []
  else chunk_text_go s chunk_size overlap 0 (s.length + 1)

/-- Concatenation of chunks with the overlapping prefixes removed: the
first chunk whole, every later chunk without its first overlap
characters. -/
def unchunk (overlap : Nat) : List Str → Str
  | [] => []
  | c :: rest => c ++ (rest.map (List.drop overlap)).flatten

theorem chunk_text_go_stop (s : Str) (chunk_size overlap : Nat) :
    ∀ fuel i, s.length ≤ i → chunk_text_go s chunk_size overlap i fuel = [] := by
  intro fuel i hi
  cases fuel with
  | zero => rfl
  | succ f => simp [chunk_text_go, Nat.not_lt.mpr hi]

theorem chunk_text_go_unchunk (s : Str) (chunk_size overlap : Nat)
    (hso : overlap < chunk_size) :
    ∀ fuel i, s.length - i ≤ fuel →
      unchunk overlap (chunk_text_go s chunk_size overlap i fuel) = s.drop i := by
  intro fuel
  induction fuel with
  | zero =>
    intro i hi
    have hle : s.length ≤ i := by omega
    rw [chunk_text_go_stop s chunk_size overlap 0 i hle,
      List.drop_of_length_le hle]
    rfl
  | succ f ih =>
    intro i hi
    by_cases hin : i < s.length
    · simp only [chunk_text_go, if_pos hin]
      rcases Nat.le_total (i + chunk_size) s.length with hcs | hcs
      · rw [Nat.min_eq_left hcs]
        by_cases hj : i + chunk_size < s.length
        · -- interior window: the loop continues at i + chunk_size - overlap
          rw [if_pos hj]
          have hi' : i + chunk_size - overlap < s.length := by omega
          have hf1 : 1 ≤ f := by omega
          obtain ⟨f1, rfl⟩ : ∃ f1, f = f1 + 1 := ⟨f - 1, by omega⟩
          have hih : unchunk overlap (chunk_text_go s chunk_size overlap
              (i + chunk_size - overlap) (f1 + 1)) = s.drop (i + chunk_size - overlap) :=
            ih (i + chunk_size - overlap) (by omega)
          simp only [chunk_text_go, if_pos hi'] at hih ⊢
          set i2 := i + chunk_size - overlap with hi2
          set c2 := (s.drop i2).take (min (i2 + chunk_size) s.length - i2) with hc2
          set rest := chunk_text_go s chunk_size overlap
            (if min (i2 + chunk_size) s.length < s.length then
              min (i2 + chunk_size) s.length - overlap
            else min (i2 + chunk_size) s.length) f1 with hrest
          have hlenc2 : overlap ≤ c2.length := by
            rw [hc2, List.length_take, List.length_drop]
            have h1 : overlap ≤ min (i2 + chunk_size) s.length - i2 := by
              rcases Nat.le_total (i2 + chunk_size) s.length with h | h
              · rw [Nat.min_eq_left h]; omega
              · rw [Nat.min_eq_right h]; omega
            have h2 : overlap ≤ s.length - i2 := by omega
            omega
          have hmain : unchunk overlap (c2 :: rest) = s.drop i2 := hih
          simp only [unchunk, List.map_cons, List.flatten_cons] at hmain ⊢
          have hdropsplit : List.drop overlap c2 ++ (rest.map (List.drop overlap)).flatten
              = List.drop overlap (c2 ++ (rest.map (List.drop overlap)).flatten) := by
            rw [List.drop_append_of_le_length hlenc2]
          rw [hdropsplit, hmain]
          rw [List.drop_drop]
          have hid : i2 + overlap = i + chunk_size := by omega
          rw [hid]
          have htd : s.drop (i + chunk_size)
              = (s.drop i).drop (chunk_size) := by
            rw [List.drop_drop]
          rw [htd]
          rw [show i + chunk_size - i = chunk_size from by omega,
            List.take_append_drop]
        · -- the window reaches exactly the end of the text
          have hje : i + chunk_size = s.length := by omega
          rw [if_neg hj, hje]
          rw [chunk_text_go_stop s chunk_size overlap f s.length (le_refl _)]
          simp only [unchunk, List.map_nil, List.flatten_nil, List.append_nil]
          have : s.length - i ≤ (s.drop i).length := by
            rw [List.length_drop]
          rw [← hje]
          have hlen : (s.drop i).length = chunk_size := by
            rw [List.length_drop, ← hje]; omega
          rw [show i + chunk_size - i = chunk_size by omega]
          rw [← hlen, List.take_length]
      · -- the window is cut at the end of the text
        rw [Nat.min_eq_right hcs]
        have hj : ¬ s.length < s.length := by omega
        rw [if_neg hj]
        rw [chunk_text_go_stop s chunk_size overlap f s.length (le_refl _)]
        simp only [unchunk, List.map_nil, List.flatten_nil, List.append_nil]
        have hlen : (s.drop i).length = s.length - i := List.length_drop _ _
        rw [← hlen, List.take_length]
    · rw [chunk_text_go_stop s chunk_size overlap (f + 1) i (by omega),
        List.drop_of_length_le (by omega)]
      rfl

/-- C3: chunk coverage.  For every text and all parameters with
overlap < chunk_size, concatenating the chunks with the overlapping
prefixes removed (the first overlap characters of every chunk after the
first) reconstructs the text exactly. -/
theorem chunk_text_coverage (s : Str) (chunk_size overlap : Nat)
    (hso : overlap < chunk_size) :
    unchunk overlap (chunk_text s chunk_size overlap) = s := by
  by_cases hs : s = []
  · subst hs; rfl
  · simp only [chunk_text, if_neg hs]
    have h := chunk_text_go_unchunk s chunk_size overlap hso (s.length + 1) 0
      (by omega)
    simpa using h

/-- C3 witness: coverage at a concrete nine-character text chunked with
size 4 and overlap 1. -/
theorem chunk_text_coverage_witness :
    unchunk 1 (chunk_text "abcdefghi".toList 4 1) = "abcdefghi".toList :=
  chunk_text_coverage "abcdefghi".toList 4 1 (by decide)

/-- The page loop of extract_text_from_pdf: append page texts, breaking
once the accumulated character count has reached max_chars (the page
that crosses the budget is still appended before the break). -/
def collect_pages : List Str → Nat → Nat → List Str
  | [], _, _ => []
  | p :: ps, max_chars, acc =>
    if max_chars ≤ acc + p.length then [p]
    else p :: collect_pages ps max_chars (acc + p.length)

/-- The newline join of a list of page texts or partial summaries. -/
def joinNl : List Str → Str
  | [] => []
  | [p] => p
  | p :: ps => p ++ '\n' :: joinNl ps

/-- extract_text_from_pdf from watch_dot_circulars.py: the document is
none when opening or reading it raises (the function then returns empty
text), otherwise its list of page texts; pages are accumulated until
max_chars is reached and the newline-joined text is cut at max_chars. -/
def extract_text_from_pdf (doc : Option (List Str)) (max_chars : Nat) : Str :=
  match doc with
  | none => []
  | some pages => (joinNl (collect_pages pages max_chars 0)).take max_chars

theorem collect_pages_ne_nil (p : Str) (ps : List Str) (max_chars acc : Nat) :
    collect_pages (p :: ps) max_chars acc ≠ [] := by
  by_cases h : max_chars ≤ acc + p.length <;> simp [collect_pages, h]

theorem joinNl_cons_ne_nil (p : Str) (l : List Str) (hl : l ≠ []) :
    joinNl (p :: l) = p ++ '\n' :: joinNl l := by
  cases l with
  | nil => exact absurd rfl hl
  | cons q qs => rfl

theorem collect_pages_take :
    ∀ (pages : List Str) (max_chars acc : Nat),
      (joinNl (collect_pages pages max_chars acc)).take (max_chars - acc)
        = (joinNl pages).take (max_chars - acc) := by
  intro pages
  induction pages with
  | nil => intro max_chars acc; rfl
  | cons p ps ih =>
    intro max_chars acc
    by_cases hbr : max_chars ≤ acc + p.length
    · simp only [collect_pages, if_pos hbr]
      cases ps with
      | nil => rfl
      | cons q qs =>
        have hjr : joinNl (p :: q :: qs) = p ++ '\n' :: joinNl (q :: qs) := rfl
        rw [hjr]
        have hle : max_chars - acc ≤ p.length := by omega
        rw [List.take_append_of_le_length hle]
        rfl
    · simp only [collect_pages, if_neg hbr]
      cases ps with
      | nil => rfl
      | cons q qs =>
        have hcne : collect_pages (q :: qs) max_chars (acc + p.length) ≠ [] :=
          collect_pages_ne_nil q qs _ _
        rw [joinNl_cons_ne_nil p _ hcne, joinNl_cons_ne_nil p _ (by simp)]
        rw [List.take_append_eq_append_take, List.take_append_eq_append_take]
        have hfull : max_chars - acc - p.length ≥ 1 := by omega
        obtain ⟨k, hk⟩ : ∃ k, max_chars - acc - p.length = k + 1 :=
          ⟨max_chars - acc - p.length - 1, by omega⟩
        rw [hk]
        simp only [List.take_succ_cons]
        have hih := ih max_chars (acc + p.length)
        have hksub : k ≤ max_chars - (acc + p.length) := by omega
        have hcut := congrArg (List.take k) hih
        rw [List.take_take, List.take_take, Nat.min_eq_left hksub] at hcut
        rw [hcut]

/-- C8: for every artifact and budget the extractor returns at most
max_chars characters; a corrupt or unreadable artifact gives the empty
string rather than an error; and for a readable artifact the result is
exactly the newline-joined page text truncated at max_chars (later
content is cut, not an error). -/
theorem extract_text_bounded (doc : Option (List Str)) (max_chars : Nat) :
    (extract_text_from_pdf doc max_chars).length ≤ max_chars ∧
      extract_text_from_pdf none max_chars = [] ∧
      (∀ pages, extract_text_from_pdf (some pages) max_chars
        = (joinNl pages).take max_chars) := by
  have hpages : ∀ pages, extract_text_from_pdf (some pages) max_chars
      = (joinNl pages).take max_chars := by
    intro pages
    have h := collect_pages_take pages max_chars 0
    simpa [extract_text_from_pdf] using h
  refine ⟨?_, rfl, hpages⟩
  cases doc with
  | none => simp [extract_text_from_pdf]
  | some pages =>
    rw [hpages pages]
    rw [List.length_take]
    exact Nat.min_le_left _ _

/-- The chunking performed by summarize_with_openai: size 6000 windows
with overlap 400. -/
def summarize_blocks (pdf_text : Str) : List Str := chunk_text pdf_text 6000 400

/-- The surviving partial summaries of the map stage of
summarize_with_openai: one service call per block (the oracle mapRes
answers the call for a block index and its text, none modelling a
raised exception), failed calls dropped. -/
def summarize_partials (mapRes : Nat → Str → Option Str) (pdf_text : Str) :
    List Str :=
  (summarize_blocks pdf_text).enum.filterMap (fun p => mapRes p.1 p.2)

/-- The newline-joined partials handed to the reduce call. -/
def summarize_combined (mapRes : Nat → Str → Option Str) (pdf_text : Str) :
    Str :=
  joinNl (summarize_partials mapRes pdf_text)

/-- summarize_with_openai from watch_dot_circulars.py, with the external
service modelled as oracles; the result pairs the returned summary with
the number of service calls attempted.  A missing credential
short-circuits to empty with zero calls; empty chunking returns empty;
the map stage attempts one call per block and drops failures; an empty
partial set returns empty; otherwise one reduce call combines the
partials, its failure yielding empty with no partial fallback. -/
def summarize_with_openai (hasKey : Bool) (mapRes : Nat → Str → Option Str)
    (redRes : Str → Option Str) (pdf_text : Str) : Str × Nat :=
  if !hasKey then ([], 0)
  else
    let blocks := summarize_blocks pdf_text
    if blocks = [] then ([], 0)
    else
      let partials := summarize_partials mapRes pdf_text
      if partials = [] then ([], blocks.length)
      else
        match redRes (summarize_combined mapRes pdf_text) with
        | some s => (s, blocks.length + 1)
        | none => ([], blocks.length + 1)

/-- C6 counterexample: with the credential present, one chunk, one
successful partial and a reduce call that succeeds but returns an empty
(stripped) message, the summary is empty although none of the claim's
four conditions holds, refuting the exactly-when claim as stated. -/
theorem summarize_empty_reduce_counterexample :
    (summarize_with_openai true (fun _ _ => some "p".toList)
        (fun _ => some []) "x".toList).1 = [] ∧
      (true : Bool) ≠ false ∧
      summarize_blocks "x".toList ≠ [] ∧
      summarize_partials (fun _ _ => some "p".toList) "x".toList ≠ [] ∧
      (fun _ : Str => some ([] : Str))
        (summarize_combined (fun _ _ => some "p".toList) "x".toList) ≠ none := by
  refine ⟨?_, by decide, by decide, by decide, by simp⟩
  decide

/-- C6 (amended): the summary is empty exactly when the credential is
missing, the text chunked to nothing, the map stage left no partial, the
reduce call failed, or the reduce call succeeded but returned an empty
message; a missing credential attempts no call at all; a failed map call
only drops that chunk (when any partial survives and the reduce call
returns a non-empty message, that message is the result, after one call
per block plus the reduce call); and a failed reduce call yields empty
with no partial fallback. -/
theorem summarize_with_openai_empty_conditions (hasKey : Bool)
    (mapRes : Nat → Str → Option Str) (redRes : Str → Option Str)
    (pdf_text : Str) :
    ((summarize_with_openai hasKey mapRes redRes pdf_text).1 = [] ↔
      (hasKey = false ∨ summarize_blocks pdf_text = [] ∨
        summarize_partials mapRes pdf_text = [] ∨
        redRes (summarize_combined mapRes pdf_text) = none ∨
        redRes (summarize_combined mapRes pdf_text) = some [])) ∧
      (hasKey = false →
        summarize_with_openai hasKey mapRes redRes pdf_text = ([], 0)) ∧
      (∀ s, hasKey = true → summarize_blocks pdf_text ≠ [] →
        summarize_partials mapRes pdf_text ≠ [] →
        redRes (summarize_combined mapRes pdf_text) = some s →
        summarize_with_openai hasKey mapRes redRes pdf_text
          = (s, (summarize_blocks pdf_text).length + 1)) ∧
      (hasKey = true → summarize_blocks pdf_text ≠ [] →
        summarize_partials mapRes pdf_text ≠ [] →
        redRes (summarize_combined mapRes pdf_text) = none →
        summarize_with_openai hasKey mapRes redRes pdf_text
          = ([], (summarize_blocks pdf_text).length + 1)) := by
  cases hasKey with
  | false =>
    have hval : summarize_with_openai false mapRes redRes pdf_text = ([], 0) := by
      simp [summarize_with_openai]
    refine ⟨?_, fun _ => hval, fun s hk => Bool.noConfusion hk,
      fun hk => Bool.noConfusion hk⟩
    rw [hval]
    simp
  | true =>
    by_cases hb : summarize_blocks pdf_text = []
    · have hval : summarize_with_openai true mapRes redRes pdf_text = ([], 0) := by
        simp [summarize_with_openai, hb]
      refine ⟨?_, fun hk => Bool.noConfusion hk,
        fun s _ hbne => absurd hb hbne, fun _ hbne => absurd hb hbne⟩
      rw [hval]
      simp [hb]
    · by_cases hp : summarize_partials mapRes pdf_text = []
      · have hval : summarize_with_openai true mapRes redRes pdf_text
            = ([], (summarize_blocks pdf_text).length) := by
          simp [summarize_with_openai, hb, hp]
        refine ⟨?_, fun hk => Bool.noConfusion hk,
          fun s _ _ hpne => absurd hp hpne, fun _ _ hpne => absurd hp hpne⟩
        rw [hval]
        simp [hp]
      · cases hred : redRes (summarize_combined mapRes pdf_text) with
        | none =>
          have hval : summarize_with_openai true mapRes redRes pdf_text
              = ([], (summarize_blocks pdf_text).length + 1) := by
            simp [summarize_with_openai, hb, hp, hred]
          refine ⟨?_, fun hk => Bool.noConfusion hk,
            fun s _ _ _ hsome => Option.noConfusion hsome,
            fun _ _ _ _ => hval⟩
          rw [hval]
          simp
        | some s =>
          have hval : summarize_with_openai true mapRes redRes pdf_text
              = (s, (summarize_blocks pdf_text).length + 1) := by
            simp [summarize_with_openai, hb, hp, hred]
          refine ⟨?_, fun hk => Bool.noConfusion hk,
            ?_, fun _ _ _ hnone => Option.noConfusion hnone⟩
          · rw [hval]
            constructor
            · intro hs
              exact Or.inr (Or.inr (Or.inr (Or.inr (congrArg some hs))))
            · intro hdisj
              rcases hdisj with hk | hbe | hpe | hn | he
              · exact Bool.noConfusion hk
              · exact absurd hbe hb
              · exact absurd hpe hp
              · exact Option.noConfusion hn
              · exact Option.some.inj he
          · intro s2 _ _ _ hsome
            rw [hval, Option.some.inj hsome]

/-- C6 witness: the amended conditions applied with a concrete text, a
map oracle failing on no chunk, and a reduce oracle that fails, giving
the empty summary with one map call and one reduce call attempted. -/
theorem summarize_with_openai_empty_conditions_witness :
    summarize_with_openai true (fun _ _ => some "p".toList) (fun _ => none)
        "x".toList
      = ([], (summarize_blocks "x".toList).length + 1) :=
  (summarize_with_openai_empty_conditions true (fun _ _ => some "p".toList)
    (fun _ => none) "x".toList).2.2.2 rfl (by decide) (by decide) rfl
